import Mathlib

/-!
# Verification of the `ps` Pointcheval–Sanders signature package

This file gives a shallow embedding of the Go package `ps` (`ps.go`), which
implements Pointcheval–Sanders multi-message signatures over a bilinear
pairing suite, and proves its functional-correctness and error-handling
properties.

## Modelling conventions

The pairing suite (kyber's bn256) supplies three cyclic groups G1, G2, GT of
the same prime order `p`, with pairing `e : G1 × G2 → GT` satisfying
`e(g1^a, g2^b) = e(g1, g2)^(a*b)`.  Since every group is cyclic of order `p`,
we represent a group element by its discrete logarithm with respect to the
group's generator, an element of `ZMod p`:

* scalar multiplication `Point.Mul s P` becomes `s * P` on logarithms;
* point addition becomes `+`; the neutral element (the value of a freshly
  created `Point()`, which kyber initialises to the identity) is `0`;
* each generator (`Point().Base()`, or `Mul(s, nil)`'s implicit base) has
  logarithm `1`;
* the pairing becomes multiplication of logarithms: `pair a b = a * b`,
  read as the logarithm of the result base `e(g1, g2)`.

Scalars of the suite are elements of the same field `ZMod p` (the source
freely mixes `G1().Scalar()` and `G2().Scalar()`; in bn256 they are the same
field).  `Scalar().SetBytes msg` interprets a byte string as a big-endian
natural number reduced mod `p`; we model messages as lists of naturals.

Serialization: marshalling a group element always succeeds and produces
canonical bytes; unmarshalling arbitrary bytes can fail (bytes that are not
a valid point encoding).  We model the external binary form of a G1 element
as a `G1Bytes` record carrying the decoded value together with a
well-formedness flag; `marshalG1` always produces a well-formed record and
`unmarshalG1` fails exactly on ill-formed ones.  Scalar serialization in
`NewKeyPair` is a canonical round trip and is modelled as the identity.

Randomness: each random value drawn by the code (`Pick` on a stream) is an
explicit parameter of the embedded function, so theorems quantify over all
values of the fresh randomness.

Go slice indexing `xs[i]` panics when out of range; the embedding performs
the same accesses through `l[i]?` and propagates `Option.none` for the
panic, so `none` marks exactly the executions that would crash.

Errors returned by the Go functions are modelled by `PSError`:
`insufficientRandomness` is `NewKeyPair`'s "need minimum two random numbers"
error, `encodingError` stands for any (un)marshalling error propagated from
the suite, and `invalidSignature` is `errors.New("ps: invalid signature")`.
-/

namespace PS

instance {ε α : Type} [DecidableEq ε] [DecidableEq α] : DecidableEq (Except ε α) :=
  fun x y =>
    match x, y with
    | .ok a, .ok b =>
        if h : a = b then isTrue (by rw [h])
        else isFalse (fun hh => h (Except.ok.inj hh))
    | .error a, .error b =>
        if h : a = b then isTrue (by rw [h])
        else isFalse (fun hh => h (Except.error.inj hh))
    | .ok _, .error _ => isFalse (fun hh => Except.noConfusion hh)
    | .error _, .ok _ => isFalse (fun hh => Except.noConfusion hh)

/-- Error outcomes of the `ps` package, see `ps.go` and the modelling notes. -/
inductive PSError where
  | insufficientRandomness
  | encodingError
  | invalidSignature
deriving DecidableEq

/-- External binary form of a G1 element: the decoded discrete logarithm
together with a flag telling whether the bytes decode to a valid point. -/
structure G1Bytes (p : ℕ) where
  val : ZMod p
  wellFormed : Bool
deriving DecidableEq

variable (p : ℕ)

/-- `MarshalBinary` of a valid G1 point: always succeeds, canonical bytes. -/
def marshalG1 (x : ZMod p) : G1Bytes p := ⟨x, true⟩

/-- `UnmarshalBinary` into a G1 point: fails exactly on ill-formed bytes. -/
def unmarshalG1 (b : G1Bytes p) : Except PSError (ZMod p) :=
  if b.wellFormed then .ok b.val else .error .encodingError

/-- `suite.G2().Scalar().SetBytes msg`: big-endian bytes reduced mod `p`. -/
def setBytes (msg : List ℕ) : ZMod p :=
  ((msg.foldl (fun acc b => acc * 256 + b) 0 : ℕ) : ZMod p)

/-- Discrete logarithm of the G1 generator. -/
def g1Base : ZMod p := 1

/-- Discrete logarithm of the G2 generator (`suite.G2().Point().Base()`). -/
def g2Base : ZMod p := 1

/-- `Point().Mul(s, P)` on discrete logarithms (either group). -/
def pointMul (s P : ZMod p) : ZMod p := s * P

/-- `Point().Add(P, Q)` on discrete logarithms (either group). -/
def pointAdd (P Q : ZMod p) : ZMod p := P + Q

/-- `suite.Pair(P, Q)` on discrete logarithms: the logarithm of the pairing
value base `e(g1, g2)` is the product of the logarithms. -/
def pair (P Q : ZMod p) : ZMod p := P * Q

/-- `NewKeyPair suite randoms` (ps.go lines 15–44): fails when fewer than two
randomness streams are supplied; otherwise the private key is the list of
scalars picked from the streams (`randoms` is the list of picked values) and
the public key is `g2^sk` slotwise.  The scalar marshal/unmarshal round trip
performed by the source is the identity on canonical encodings. -/
def NewKeyPair (randoms : List (ZMod p)) :
    Except PSError (List (ZMod p) × List (ZMod p)) :=
  if randoms.length < 2 then .error .insufficientRandomness
  else
    let priKey := randoms
    let pubKey := priKey.map (fun s => pointMul p s (g2Base p))
    .ok (priKey, pubKey)

/-- `Sign suite priKey msg` (ps.go lines 48–68) with the fresh random point
`h` (its discrete logarithm) made explicit.  Accesses `priKey[1]` and
`priKey[0]`; `none` models the panic when the key is too short. -/
def Sign (priKey : List (ZMod p)) (msg : List ℕ) (h : ZMod p) :
    Option (List (G1Bytes p)) :=
  match priKey[1]?, priKey[0]? with
  | some pk1, some pk0 =>
      let y := pk1 * setBytes p msg
      let x := pk0 + y
      some [marshalG1 p h, marshalG1 p (pointMul p x h)]
  | _, _ => none

/-- Loop of `BatchSign` (ps.go lines 83–86): starting from index `i` and
accumulator `acc`, folds `acc + priKey[i+1] * SetBytes msg` over the
messages; `none` models the panic on an out-of-range key access. -/
def batchSumAux (priKey : List (ZMod p)) (msgs : List (List ℕ)) (i : ℕ)
    (acc : ZMod p) : Option (ZMod p) :=
  match msgs with
  | [] => some acc
  | msg :: rest =>
    match priKey[i + 1]? with
    | none => none
    | some pk => batchSumAux priKey rest (i + 1) (acc + pk * setBytes p msg)

/-- The weighted sum `Σ_{i} priKey[i+1] * m_i` accumulated by `BatchSign`. -/
def batchSum (priKey : List (ZMod p)) (msgs : List (List ℕ)) : Option (ZMod p) :=
  batchSumAux p priKey msgs 0 0

/-- `BatchSign suite priKey msgs` (ps.go lines 73–96) with the fresh random
point `h` explicit. -/
def BatchSign (priKey : List (ZMod p)) (msgs : List (List ℕ)) (h : ZMod p) :
    Option (List (G1Bytes p)) :=
  match batchSum p priKey msgs with
  | none => none
  | some y =>
    match priKey[0]? with
    | none => none
    | some pk0 => some [marshalG1 p h, marshalG1 p (pointMul p (pk0 + y) h)]

/-- `AggreSign suite priKey msg` (ps.go lines 99–121) with the fresh random
scalar `t` explicit: `σ1 = g1^t`, `σ2 = g1^(t*(x + y*m))`. -/
def AggreSign (priKey : List (ZMod p)) (msg : List ℕ) (t : ZMod p) :
    Option (List (G1Bytes p)) :=
  match priKey[1]?, priKey[0]? with
  | some pk1, some pk0 =>
      let sigma1 := pointMul p t (g1Base p)
      let y := pk1 * setBytes p msg
      let x := pk0 + y
      let v := x * t
      some [marshalG1 p sigma1, marshalG1 p (pointMul p v (g1Base p))]
  | _, _ => none

/-- `Verify suite pubKey msg S` (ps.go lines 125–147): builds
`X = pubKey[0] + msg*pubKey[1]` on logarithms, decodes both signature
components (propagating the decode error), and compares
`e(σ1, X)` with `e(σ2, g2)`. -/
def Verify (pubKey : List (ZMod p)) (msg : List ℕ) (S : List (G1Bytes p)) :
    Option (Except PSError Unit) :=
  match pubKey[1]?, pubKey[0]? with
  | some pk1, some pk0 =>
    let msgScalar := setBytes p msg
    let Y := pointMul p msgScalar pk1
    let X := pointAdd p Y pk0
    match S[0]? with
    | none => none
    | some b0 =>
      match unmarshalG1 p b0 with
      | .error e => some (.error e)
      | .ok s1 =>
        let left := pair p s1 X
        match S[1]? with
        | none => none
        | some b1 =>
          match unmarshalG1 p b1 with
          | .error e => some (.error e)
          | .ok s2 =>
            let right := pair p s2 (g2Base p)
            if left = right then some (.ok ()) else some (.error .invalidSignature)
  | _, _ => none

/-- Loop of `PSBatchVerify` (ps.go lines 154–157): folds
`acc + SetBytes msg * pubKey[i+1]` over the messages, starting from the
identity element of G2 (`suite.G2().Point()` is the zero value). -/
def batchYAux (pubKey : List (ZMod p)) (msgs : List (List ℕ)) (i : ℕ)
    (acc : ZMod p) : Option (ZMod p) :=
  match msgs with
  | [] => some acc
  | msg :: rest =>
    match pubKey[i + 1]? with
    | none => none
    | some pk =>
        batchYAux pubKey rest (i + 1)
          (pointAdd p acc (pointMul p (setBytes p msg) pk))

/-- The accumulated point `Σ_i m_i * pubKey[i+1]` of `PSBatchVerify`. -/
def batchY (pubKey : List (ZMod p)) (msgs : List (List ℕ)) : Option (ZMod p) :=
  batchYAux p pubKey msgs 0 0

/-- `PSBatchVerify suite pubKey msgs S` (ps.go lines 151–177). -/
def PSBatchVerify (pubKey : List (ZMod p)) (msgs : List (List ℕ))
    (S : List (G1Bytes p)) : Option (Except PSError Unit) :=
  match batchY p pubKey msgs with
  | none => none
  | some Yv =>
    match pubKey[0]? with
    | none => none
    | some pk0 =>
      let X := pointAdd p Yv pk0
      match S[0]? with
      | none => none
      | some b0 =>
        match unmarshalG1 p b0 with
        | .error e => some (.error e)
        | .ok s1 =>
          let left := pair p s1 X
          match S[1]? with
          | none => none
          | some b1 =>
            match unmarshalG1 p b1 with
            | .error e => some (.error e)
            | .ok s2 =>
              let right := pair p s2 (g2Base p)
              if left = right then some (.ok ())
              else some (.error .invalidSignature)

/-- `AggregatePSSign suite priKey S msg` (ps.go lines 182–217) with the fresh
random scalar `t` explicit: `σ1' = σ1^t`, `σ2' = (σ1^(y*m) * σ2)^t`. -/
def AggregatePSSign (priKey : ZMod p) (S : List (G1Bytes p)) (msg : List ℕ)
    (t : ZMod p) : Option (Except PSError (List (G1Bytes p))) :=
  match S[0]? with
  | none => none
  | some b0 =>
    match unmarshalG1 p b0 with
    | .error e => some (.error e)
    | .ok s1 =>
      let sigma1t := pointMul p t s1
      let y := priKey * setBytes p msg
      let sigma_1 := pointMul p y s1
      match S[1]? with
      | none => none
      | some b1 =>
        match unmarshalG1 p b1 with
        | .error e => some (.error e)
        | .ok s2 =>
          let sigma_2 := pointAdd p sigma_1 s2
          some (.ok [marshalG1 p sigma1t, marshalG1 p (pointMul p t sigma_2)])

/-- Iterated aggregation: extend a signature by a list of links, each link a
triple (per-slot secret `y`, message, fresh random `t`), by repeated calls to
`AggregatePSSign`. -/
def chainExtend (S : List (G1Bytes p)) :
    List (ZMod p × List ℕ × ZMod p) → Option (Except PSError (List (G1Bytes p)))
  | [] => some (.ok S)
  | (y, m, t) :: rest =>
    match AggregatePSSign p y S m t with
    | none => none
    | some (.error e) => some (.error e)
    | some (.ok S') => chainExtend S' rest

/-- The total message-weighted secret `Σ y_i * m_i` contributed by a list of
aggregation links. -/
def linkSum : List (ZMod p × List ℕ × ZMod p) → ZMod p
  | [] => 0
  | (y, m, _) :: rest => y * setBytes p m + linkSum rest

/-! ## Helper lemmas -/

theorem unmarshal_marshal (x : ZMod p) : unmarshalG1 p (marshalG1 p x) = .ok x := rfl

theorem exists_cons_cons_of_two_le {α : Type} {l : List α} (h : 2 ≤ l.length) :
    ∃ a b t, l = a :: b :: t := by
  match l with
  | a :: b :: t => exact ⟨a, b, t, rfl⟩
  | [] => simp at h
  | [a] => simp at h

theorem batchSumAux_isSome (priKey : List (ZMod p)) :
    ∀ (msgs : List (List ℕ)) (i : ℕ) (acc : ZMod p),
      i + msgs.length < priKey.length →
      ∃ y, batchSumAux p priKey msgs i acc = some y := by
  intro msgs
  induction msgs with
  | nil => exact fun i acc _ => ⟨acc, rfl⟩
  | cons m rest ih =>
    intro i acc hlen
    have hi : i + 1 < priKey.length := by simp [List.length_cons] at hlen; omega
    rw [batchSumAux, List.getElem?_eq_getElem hi]
    exact ih (i + 1) _ (by simp [List.length_cons] at hlen ⊢; omega)

theorem batchYAux_isSome (pubKey : List (ZMod p)) :
    ∀ (msgs : List (List ℕ)) (i : ℕ) (acc : ZMod p),
      i + msgs.length < pubKey.length →
      ∃ y, batchYAux p pubKey msgs i acc = some y := by
  intro msgs
  induction msgs with
  | nil => exact fun i acc _ => ⟨acc, rfl⟩
  | cons m rest ih =>
    intro i acc hlen
    have hi : i + 1 < pubKey.length := by simp [List.length_cons] at hlen; omega
    rw [batchYAux, List.getElem?_eq_getElem hi]
    exact ih (i + 1) _ (by simp [List.length_cons] at hlen ⊢; omega)

theorem batchSumAux_eq_none (priKey : List (ZMod p)) :
    ∀ (msgs : List (List ℕ)) (i : ℕ) (acc : ZMod p),
      msgs ≠ [] → priKey.length ≤ i + msgs.length →
      batchSumAux p priKey msgs i acc = none := by
  intro msgs
  induction msgs with
  | nil => exact fun i acc hne _ => absurd rfl hne
  | cons m rest ih =>
    intro i acc _ hlen
    rw [batchSumAux]
    by_cases hi : i + 1 < priKey.length
    · rw [List.getElem?_eq_getElem hi]
      have hrest : rest ≠ [] := by
        intro hr
        subst hr
        simp [List.length_cons] at hlen
        omega
      exact ih (i + 1) _ hrest (by simp [List.length_cons] at hlen ⊢; omega)
    · rw [List.getElem?_eq_none (by omega)]

theorem batchYAux_map (priKey : List (ZMod p)) :
    ∀ (msgs : List (List ℕ)) (i : ℕ) (acc : ZMod p),
      batchYAux p (priKey.map (fun s => pointMul p s (g2Base p))) msgs i acc =
        batchSumAux p priKey msgs i acc := by
  intro msgs
  induction msgs with
  | nil => exact fun i acc => rfl
  | cons m rest ih =>
    intro i acc
    rw [batchYAux, batchSumAux, List.getElem?_map]
    cases hpk : priKey[i + 1]? with
    | none => rfl
    | some pk =>
      rw [Option.map_some']
      have hacc : pointAdd p acc (pointMul p (setBytes p m) (pointMul p pk (g2Base p))) =
          acc + pk * setBytes p m := by
        simp only [pointAdd, pointMul, g2Base]
        ring
      show batchYAux p (priKey.map (fun s => pointMul p s (g2Base p))) rest (i + 1)
          (pointAdd p acc (pointMul p (setBytes p m) (pointMul p pk (g2Base p)))) =
        batchSumAux p priKey rest (i + 1) (acc + pk * setBytes p m)
      rw [hacc]
      exact ih (i + 1) _

theorem verify_marshal_ok (pubKey : List (ZMod p)) (msg : List ℕ)
    (pk1 pk0 s1 s2 : ZMod p)
    (h1 : pubKey[1]? = some pk1) (h0 : pubKey[0]? = some pk0)
    (heq : pair p s1 (pointAdd p (pointMul p (setBytes p msg) pk1) pk0) =
      pair p s2 (g2Base p)) :
    Verify p pubKey msg [marshalG1 p s1, marshalG1 p s2] = some (.ok ()) := by
  rw [Verify, h1, h0]
  show (if pair p s1 (pointAdd p (pointMul p (setBytes p msg) pk1) pk0) =
        pair p s2 (g2Base p)
      then some (Except.ok ()) else some (Except.error PSError.invalidSignature)) =
    some (.ok ())
  rw [if_pos heq]

theorem psBatchVerify_marshal_ok (pubKey : List (ZMod p)) (msgs : List (List ℕ))
    (Yv pk0 s1 s2 : ZMod p)
    (hY : batchY p pubKey msgs = some Yv) (h0 : pubKey[0]? = some pk0)
    (heq : pair p s1 (pointAdd p Yv pk0) = pair p s2 (g2Base p)) :
    PSBatchVerify p pubKey msgs [marshalG1 p s1, marshalG1 p s2] = some (.ok ()) := by
  rw [PSBatchVerify, hY, h0]
  show (if pair p s1 (pointAdd p Yv pk0) = pair p s2 (g2Base p)
      then some (Except.ok ()) else some (Except.error PSError.invalidSignature)) =
    some (.ok ())
  rw [if_pos heq]

theorem aggregatePSSign_marshal (y s1 E : ZMod p) (m : List ℕ) (t : ZMod p) :
    AggregatePSSign p y [marshalG1 p s1, marshalG1 p (s1 * E)] m t =
      some (.ok [marshalG1 p (t * s1),
        marshalG1 p ((t * s1) * (E + y * setBytes p m))]) := by
  show some (Except.ok [marshalG1 p (pointMul p t s1),
      marshalG1 p (pointMul p t
        (pointAdd p (pointMul p (y * setBytes p m) s1) (s1 * E)))]) =
    some (.ok [marshalG1 p (t * s1),
      marshalG1 p ((t * s1) * (E + y * setBytes p m))])
  have hv : pointMul p t (pointAdd p (pointMul p (y * setBytes p m) s1) (s1 * E)) =
      (t * s1) * (E + y * setBytes p m) := by
    simp only [pointMul, pointAdd]
    ring
  rw [hv]
  rfl

theorem chainExtend_marshal (links : List (ZMod p × List ℕ × ZMod p)) :
    ∀ s1 E : ZMod p,
      ∃ s1f s2f,
        chainExtend p [marshalG1 p s1, marshalG1 p (s1 * E)] links =
          some (.ok [marshalG1 p s1f, marshalG1 p s2f]) ∧
        s2f = s1f * (E + linkSum p links) := by
  induction links with
  | nil =>
      intro s1 E
      exact ⟨s1, s1 * E, rfl, by rw [linkSum]; ring⟩
  | cons link rest ih =>
      obtain ⟨y, m, t⟩ := link
      intro s1 E
      obtain ⟨s1f, s2f, hchain, hexp⟩ := ih (t * s1) (E + y * setBytes p m)
      refine ⟨s1f, s2f, ?_, ?_⟩
      · rw [chainExtend, aggregatePSSign_marshal]
        exact hchain
      · rw [hexp, linkSum]
        ring

/-! ## Claims -/

/-- C1: for every key pair produced by `NewKeyPair` from `r ≥ 2` randomness
sources and every message, `Verify pubKey msg (Sign priKey msg)` returns no
error, for every value of the fresh random point `h` sampled inside `Sign`. -/
theorem ps_roundtrip (p : ℕ) (randoms : List (ZMod p)) (msg : List ℕ)
    (h : ZMod p) (priKey pubKey : List (ZMod p))
    (hkp : NewKeyPair p randoms = .ok (priKey, pubKey)) :
    ∃ sig, Sign p priKey msg h = some sig ∧
      Verify p pubKey msg sig = some (.ok ()) := by
  rw [NewKeyPair] at hkp
  split at hkp
  · exact absurd hkp (fun hh => Except.noConfusion hh)
  · rename_i hlen
    rw [Except.ok.injEq, Prod.mk.injEq] at hkp
    obtain ⟨rfl, rfl⟩ := hkp
    obtain ⟨r0, r1, rest, rfl⟩ := exists_cons_cons_of_two_le (l := randoms) (by omega)
    refine ⟨[marshalG1 p h, marshalG1 p (pointMul p (r0 + r1 * setBytes p msg) h)],
      by simp [Sign], ?_⟩
    exact verify_marshal_ok p _ msg (pointMul p r1 (g2Base p))
      (pointMul p r0 (g2Base p)) h (pointMul p (r0 + r1 * setBytes p msg) h)
      (by simp) (by simp)
      (by simp only [pair, pointAdd, pointMul, g2Base]; ring)

/-- C1 witness at `p = 5`, key `[2, 3]`, message `[7]`, randomness `h = 4`. -/
theorem ps_roundtrip_witness :
    ∃ sig, Sign 5 [(2 : ZMod 5), 3] [7] 4 = some sig ∧
      Verify 5 [pointMul 5 2 (g2Base 5), pointMul 5 3 (g2Base 5)] [7] sig =
        some (.ok ()) :=
  ps_roundtrip 5 [2, 3] [7] 4 [2, 3]
    [pointMul 5 2 (g2Base 5), pointMul 5 3 (g2Base 5)] (by decide)

/-- C2: for every key pair with `r` slots and every message vector of length
at most `r − 1`, `PSBatchVerify pubKey msgs (BatchSign priKey msgs)` returns
no error, for every value of the fresh random point `h` sampled inside
`BatchSign`. -/
theorem ps_batch_roundtrip (p : ℕ) (randoms : List (ZMod p))
    (msgs : List (List ℕ)) (h : ZMod p) (priKey pubKey : List (ZMod p))
    (hkp : NewKeyPair p randoms = .ok (priKey, pubKey))
    (hlen : msgs.length + 1 ≤ priKey.length) :
    ∃ sig, BatchSign p priKey msgs h = some sig ∧
      PSBatchVerify p pubKey msgs sig = some (.ok ()) := by
  rw [NewKeyPair] at hkp
  split at hkp
  · exact absurd hkp (fun hh => Except.noConfusion hh)
  · rename_i hlen2
    rw [Except.ok.injEq, Prod.mk.injEq] at hkp
    obtain ⟨rfl, rfl⟩ := hkp
    obtain ⟨yv, hy⟩ := batchSumAux_isSome p randoms msgs 0 0 (by omega)
    have hY : batchY p (randoms.map (fun s => pointMul p s (g2Base p))) msgs =
        some yv := by
      rw [batchY, batchYAux_map]
      exact hy
    obtain ⟨r0, rtl, rfl⟩ : ∃ a t, randoms = a :: t := by
      obtain ⟨a, b, t, rfl⟩ := exists_cons_cons_of_two_le (l := randoms) (by omega)
      exact ⟨a, b :: t, rfl⟩
    refine ⟨[marshalG1 p h, marshalG1 p (pointMul p (r0 + yv) h)], ?_, ?_⟩
    · rw [BatchSign, batchSum, hy]
      simp
    · exact psBatchVerify_marshal_ok p _ msgs yv (pointMul p r0 (g2Base p)) h
        (pointMul p (r0 + yv) h) hY (by simp)
        (by simp only [pair, pointAdd, pointMul, g2Base]; ring)

/-- C2 witness at `p = 5`, key `[2, 3, 4]` (so `r = 3`), two messages,
randomness `h = 3`. -/
theorem ps_batch_roundtrip_witness :
    ∃ sig, BatchSign 5 [(2 : ZMod 5), 3, 4] [[7], [9]] 3 = some sig ∧
      PSBatchVerify 5
        [pointMul 5 2 (g2Base 5), pointMul 5 3 (g2Base 5), pointMul 5 4 (g2Base 5)]
        [[7], [9]] sig = some (.ok ()) :=
  ps_batch_roundtrip 5 [2, 3, 4] [[7], [9]] 3 [2, 3, 4]
    [pointMul 5 2 (g2Base 5), pointMul 5 3 (g2Base 5), pointMul 5 4 (g2Base 5)]
    (by decide) (by decide)

/-- C3: for every key pair with at least 4 slots and messages `m1, m2, m3`,
the chain `AggregatePSSign (y3, AggregatePSSign (y2, AggreSign (sk, m1), m2), m3)`
with `y2, y3` the private scalars of key slots 2 and 3 produces a signature
that `PSBatchVerify` accepts against the full public key and `[m1, m2, m3]`,
for all values of the fresh random scalars `t1, t2, t3`. -/
theorem ps_aggregate_chain_verifies (p : ℕ) (randoms : List (ZMod p))
    (m1 m2 m3 : List ℕ) (t1 t2 t3 : ZMod p) (priKey pubKey : List (ZMod p))
    (hkp : NewKeyPair p randoms = .ok (priKey, pubKey))
    (hr : 4 ≤ priKey.length) :
    ∃ S1 S2 S3,
      AggreSign p priKey m1 t1 = some S1 ∧
      AggregatePSSign p (priKey.getD 2 0) S1 m2 t2 = some (.ok S2) ∧
      AggregatePSSign p (priKey.getD 3 0) S2 m3 t3 = some (.ok S3) ∧
      PSBatchVerify p pubKey [m1, m2, m3] S3 = some (.ok ()) := by
  rw [NewKeyPair] at hkp
  split at hkp
  · exact absurd hkp (fun hh => Except.noConfusion hh)
  · rw [Except.ok.injEq, Prod.mk.injEq] at hkp
    obtain ⟨rfl, rfl⟩ := hkp
    obtain ⟨r0, r1, r2, r3, rest, rfl⟩ :
        ∃ a b c d t, randoms = a :: b :: c :: d :: t := by
      match randoms, hr with
      | a :: b :: c :: d :: t, _ => exact ⟨a, b, c, d, t, rfl⟩
      | [], hh => simp at hh
      | [a], hh => simp at hh
      | [a, b], hh => simp at hh
      | [a, b, c], hh => simp at hh
    have hS1 : AggreSign p (r0 :: r1 :: r2 :: r3 :: rest) m1 t1 =
        some [marshalG1 p (pointMul p t1 (g1Base p)),
          marshalG1 p (pointMul p ((r0 + r1 * setBytes p m1) * t1) (g1Base p))] := by
      simp [AggreSign]
    have hgd2 : (r0 :: r1 :: r2 :: r3 :: rest).getD 2 0 = r2 := rfl
    have hgd3 : (r0 :: r1 :: r2 :: r3 :: rest).getD 3 0 = r3 := rfl
    refine ⟨[marshalG1 p (pointMul p t1 (g1Base p)),
        marshalG1 p (pointMul p ((r0 + r1 * setBytes p m1) * t1) (g1Base p))],
      [marshalG1 p (pointMul p t2 (pointMul p t1 (g1Base p))),
        marshalG1 p (pointMul p t2 (pointAdd p
          (pointMul p (r2 * setBytes p m2) (pointMul p t1 (g1Base p)))
          (pointMul p ((r0 + r1 * setBytes p m1) * t1) (g1Base p))))],
      [marshalG1 p (pointMul p t3 (pointMul p t2 (pointMul p t1 (g1Base p)))),
        marshalG1 p (pointMul p t3 (pointAdd p
          (pointMul p (r3 * setBytes p m3)
            (pointMul p t2 (pointMul p t1 (g1Base p))))
          (pointMul p t2 (pointAdd p
            (pointMul p (r2 * setBytes p m2) (pointMul p t1 (g1Base p)))
            (pointMul p ((r0 + r1 * setBytes p m1) * t1) (g1Base p))))))],
      hS1, ?_, ?_, ?_⟩
    · rw [hgd2]
      rfl
    · rw [hgd3]
      rfl
    · refine psBatchVerify_marshal_ok p _ [m1, m2, m3]
        (pointAdd p (pointAdd p
            (pointAdd p 0 (pointMul p (setBytes p m1) (pointMul p r1 (g2Base p))))
            (pointMul p (setBytes p m2) (pointMul p r2 (g2Base p))))
          (pointMul p (setBytes p m3) (pointMul p r3 (g2Base p))))
        (pointMul p r0 (g2Base p)) _ _ ?_ (by simp) ?_
      · simp [batchY, batchYAux]
      · simp only [pair, pointAdd, pointMul, g1Base, g2Base]
        ring

/-- C3 witness at `p = 5`, key `[1, 2, 3, 4]`, three messages, randomness
`t1 = 1`, `t2 = 2`, `t3 = 3`. -/
theorem ps_aggregate_chain_verifies_witness :
    ∃ S1 S2 S3,
      AggreSign 5 [(1 : ZMod 5), 2, 3, 4] [2] 1 = some S1 ∧
      AggregatePSSign 5 (([(1 : ZMod 5), 2, 3, 4]).getD 2 0) S1 [3] 2 =
        some (.ok S2) ∧
      AggregatePSSign 5 (([(1 : ZMod 5), 2, 3, 4]).getD 3 0) S2 [4] 3 =
        some (.ok S3) ∧
      PSBatchVerify 5
        [pointMul 5 1 (g2Base 5), pointMul 5 2 (g2Base 5),
          pointMul 5 3 (g2Base 5), pointMul 5 4 (g2Base 5)]
        [[2], [3], [4]] S3 = some (.ok ()) :=
  ps_aggregate_chain_verifies 5 [1, 2, 3, 4] [2] [3] [4] 1 2 3 [1, 2, 3, 4]
    [pointMul 5 1 (g2Base 5), pointMul 5 2 (g2Base 5),
      pointMul 5 3 (g2Base 5), pointMul 5 4 (g2Base 5)]
    (by decide) (by decide)

/-- C4: `AggreSign` outputs a pair with `σ2 = σ1^(x + y1·m1)`; every
`AggregatePSSign` step with per-slot secret `y` and message `m` maps a pair
satisfying `σ2 = σ1^E` to `(σ1^t, (σ1^(y·m)·σ2)^t)`, which satisfies
`σ2' = σ1'^(E + y·m)`; hence after any number of links the exponent relating
`σ2` to `σ1` is `x + Σ y_i·m_i` over all messages signed so far.  On discrete
logarithms, exponentiation of `σ1` is multiplication. -/
theorem ps_aggregate_invariant (p : ℕ) (priKey : List (ZMod p)) (m1 : List ℕ)
    (t0 : ZMod p) (links : List (ZMod p × List ℕ × ZMod p))
    (S0 : List (G1Bytes p)) (h0 : AggreSign p priKey m1 t0 = some S0) :
    (∃ s1 s2, S0 = [marshalG1 p s1, marshalG1 p s2] ∧
        s2 = s1 * (priKey.getD 0 0 + priKey.getD 1 0 * setBytes p m1)) ∧
    (∀ y : ZMod p, ∀ m : List ℕ, ∀ t E s1 : ZMod p,
        AggregatePSSign p y [marshalG1 p s1, marshalG1 p (s1 * E)] m t =
          some (.ok [marshalG1 p (t * s1),
            marshalG1 p ((t * s1) * (E + y * setBytes p m))])) ∧
    (∃ Sf s1f s2f,
        chainExtend p S0 links = some (.ok Sf) ∧
        Sf = [marshalG1 p s1f, marshalG1 p s2f] ∧
        s2f = s1f * (priKey.getD 0 0 + priKey.getD 1 0 * setBytes p m1 +
          linkSum p links)) := by
  cases h1 : priKey[1]? with
  | none =>
      rw [AggreSign, h1] at h0
      exact Option.noConfusion h0
  | some pk1 =>
    cases h00 : priKey[0]? with
    | none =>
        rw [AggreSign, h1, h00] at h0
        exact Option.noConfusion h0
    | some pk0 =>
      rw [AggreSign, h1, h00] at h0
      have hS0 : S0 = [marshalG1 p (pointMul p t0 (g1Base p)),
          marshalG1 p (pointMul p ((pk0 + pk1 * setBytes p m1) * t0) (g1Base p))] :=
        (Option.some.inj h0).symm
      subst hS0
      have hgd0 : priKey.getD 0 0 = pk0 := by
        rw [List.getD_eq_getElem?_getD, h00]
        rfl
      have hgd1 : priKey.getD 1 0 = pk1 := by
        rw [List.getD_eq_getElem?_getD, h1]
        rfl
      have hval : pointMul p ((pk0 + pk1 * setBytes p m1) * t0) (g1Base p) =
          (pointMul p t0 (g1Base p)) * (pk0 + pk1 * setBytes p m1) := by
        simp only [pointMul, g1Base]
        ring
      refine ⟨?_, ?_, ?_⟩
      · refine ⟨pointMul p t0 (g1Base p),
          pointMul p ((pk0 + pk1 * setBytes p m1) * t0) (g1Base p), rfl, ?_⟩
        rw [hgd0, hgd1, hval]
      · intro y m t E s1
        exact aggregatePSSign_marshal p y s1 E m t
      · obtain ⟨s1f, s2f, hchain, hexp⟩ :=
          chainExtend_marshal p links (pointMul p t0 (g1Base p))
            (pk0 + pk1 * setBytes p m1)
        refine ⟨[marshalG1 p s1f, marshalG1 p s2f], s1f, s2f, ?_, rfl, ?_⟩
        · rw [hval]
          exact hchain
        · rw [hgd0, hgd1]
          exact hexp

/-- C4 witness at `p = 5`: key `[1, 2]`, first message `[3]`, `t0 = 2`, then
one extension link with secret `3`, message `[4]`, `t = 1`, projected onto
the step equation at `E = 4`, `s1 = 2`. -/
theorem ps_aggregate_invariant_witness :
    AggregatePSSign 5 3 [marshalG1 5 2, marshalG1 5 (2 * 4)] [4] 1 =
      some (.ok [marshalG1 5 (1 * 2),
        marshalG1 5 ((1 * 2) * (4 + 3 * setBytes 5 [4]))]) :=
  (ps_aggregate_invariant 5 [1, 2] [3] 2 [(3, [4], 1)]
      [⟨2, true⟩, ⟨4, true⟩] (by decide)).2.1 3 [4] 1 4 2

/-- C5: with both signature components decoding successfully, `Verify`
(resp. `PSBatchVerify`) returns no error iff
`e(σ1, X · Π Y_i^(m_i)) = e(σ2, g2)` and returns `invalidSignature` exactly
when the two pairing values differ; when a component fails to decode, the
decoding error is returned instead. -/
theorem ps_verify_decision (p : ℕ) (pubKey : List (ZMod p)) (msg : List ℕ)
    (msgs : List (List ℕ)) (b0 b1 : G1Bytes p) (pk1 pk0 Yv : ZMod p)
    (h1 : pubKey[1]? = some pk1) (h0 : pubKey[0]? = some pk0)
    (hY : batchY p pubKey msgs = some Yv) :
    (b0.wellFormed = true → b1.wellFormed = true →
      (Verify p pubKey msg [b0, b1] = some (.ok ()) ↔
        pair p b0.val (pointAdd p (pointMul p (setBytes p msg) pk1) pk0) =
          pair p b1.val (g2Base p))) ∧
    (b0.wellFormed = true → b1.wellFormed = true →
      (Verify p pubKey msg [b0, b1] = some (.error .invalidSignature) ↔
        pair p b0.val (pointAdd p (pointMul p (setBytes p msg) pk1) pk0) ≠
          pair p b1.val (g2Base p))) ∧
    (b0.wellFormed = false →
      Verify p pubKey msg [b0, b1] = some (.error .encodingError)) ∧
    (b0.wellFormed = true → b1.wellFormed = false →
      Verify p pubKey msg [b0, b1] = some (.error .encodingError)) ∧
    (b0.wellFormed = true → b1.wellFormed = true →
      (PSBatchVerify p pubKey msgs [b0, b1] = some (.ok ()) ↔
        pair p b0.val (pointAdd p Yv pk0) = pair p b1.val (g2Base p))) ∧
    (b0.wellFormed = true → b1.wellFormed = true →
      (PSBatchVerify p pubKey msgs [b0, b1] = some (.error .invalidSignature) ↔
        pair p b0.val (pointAdd p Yv pk0) ≠ pair p b1.val (g2Base p))) ∧
    (b0.wellFormed = false →
      PSBatchVerify p pubKey msgs [b0, b1] = some (.error .encodingError)) ∧
    (b0.wellFormed = true → b1.wellFormed = false →
      PSBatchVerify p pubKey msgs [b0, b1] = some (.error .encodingError)) := by
  obtain ⟨v0, w0⟩ := b0
  obtain ⟨v1, w1⟩ := b1
  have hVwf : ∀ u0 u1 : ZMod p,
      Verify p pubKey msg [⟨u0, true⟩, ⟨u1, true⟩] =
        (if pair p u0 (pointAdd p (pointMul p (setBytes p msg) pk1) pk0) =
            pair p u1 (g2Base p)
          then some (Except.ok ())
          else some (Except.error PSError.invalidSignature)) := by
    intro u0 u1
    rw [Verify, h1, h0]
    simp [unmarshalG1]
  have hVb0 : ∀ u0 : ZMod p, ∀ c1 : G1Bytes p,
      Verify p pubKey msg [⟨u0, false⟩, c1] =
        some (.error .encodingError) := by
    intro u0 c1
    rw [Verify, h1, h0]
    simp [unmarshalG1]
  have hVb1 : ∀ u0 u1 : ZMod p,
      Verify p pubKey msg [⟨u0, true⟩, ⟨u1, false⟩] =
        some (.error .encodingError) := by
    intro u0 u1
    rw [Verify, h1, h0]
    simp [unmarshalG1]
  have hBwf : ∀ u0 u1 : ZMod p,
      PSBatchVerify p pubKey msgs [⟨u0, true⟩, ⟨u1, true⟩] =
        (if pair p u0 (pointAdd p Yv pk0) = pair p u1 (g2Base p)
          then some (Except.ok ())
          else some (Except.error PSError.invalidSignature)) := by
    intro u0 u1
    rw [PSBatchVerify, hY, h0]
    simp [unmarshalG1]
  have hBb0 : ∀ u0 : ZMod p, ∀ c1 : G1Bytes p,
      PSBatchVerify p pubKey msgs [⟨u0, false⟩, c1] =
        some (.error .encodingError) := by
    intro u0 c1
    rw [PSBatchVerify, hY, h0]
    simp [unmarshalG1]
  have hBb1 : ∀ u0 u1 : ZMod p,
      PSBatchVerify p pubKey msgs [⟨u0, true⟩, ⟨u1, false⟩] =
        some (.error .encodingError) := by
    intro u0 u1
    rw [PSBatchVerify, hY, h0]
    simp [unmarshalG1]
  refine ⟨?_, ?_, ?_, ?_, ?_, ?_, ?_, ?_⟩
  · intro hw0 hw1
    subst hw0
    subst hw1
    rw [hVwf]
    by_cases hA : pair p v0 (pointAdd p (pointMul p (setBytes p msg) pk1) pk0) =
        pair p v1 (g2Base p)
    · simp [hA]
    · simp [hA]
  · intro hw0 hw1
    subst hw0
    subst hw1
    rw [hVwf]
    by_cases hA : pair p v0 (pointAdd p (pointMul p (setBytes p msg) pk1) pk0) =
        pair p v1 (g2Base p)
    · simp [hA]
    · simp [hA]
  · intro hw0
    subst hw0
    exact hVb0 v0 ⟨v1, w1⟩
  · intro hw0 hw1
    subst hw0
    subst hw1
    exact hVb1 v0 v1
  · intro hw0 hw1
    subst hw0
    subst hw1
    rw [hBwf]
    by_cases hA : pair p v0 (pointAdd p Yv pk0) = pair p v1 (g2Base p)
    · simp [hA]
    · simp [hA]
  · intro hw0 hw1
    subst hw0
    subst hw1
    rw [hBwf]
    by_cases hA : pair p v0 (pointAdd p Yv pk0) = pair p v1 (g2Base p)
    · simp [hA]
    · simp [hA]
  · intro hw0
    subst hw0
    exact hBb0 v0 ⟨v1, w1⟩
  · intro hw0 hw1
    subst hw0
    subst hw1
    exact hBb1 v0 v1

/-- C5 witness at `p = 5`: public key `[1, 2]`, message `[3]`, a signature
whose second component is ill-formed; the decoding error is returned. -/
theorem ps_verify_decision_witness :
    Verify 5 [(1 : ZMod 5), 2] [3] [⟨1, true⟩, ⟨2, false⟩] =
      some (.error .encodingError) :=
  (ps_verify_decision 5 [1, 2] [3] [[3]] ⟨1, true⟩ ⟨2, false⟩ 2 1
      (pointAdd 5 0 (pointMul 5 (setBytes 5 [3]) 2))
      (by decide) (by decide) (by decide)).2.2.2.1 rfl rfl

/-- C6: `NewKeyPair` with fewer than two randomness sources fails with the
insufficient-randomness error; with `r ≥ 2` sources it returns a private key
of exactly `r` scalars and a public key of exactly `r` G2 points with
`PublicKey[i] = g2^(PrivateKey[i])` for every `i < r`. -/
theorem ps_newKeyPair_contract (p : ℕ) (randoms : List (ZMod p)) :
    (randoms.length < 2 →
      NewKeyPair p randoms = .error .insufficientRandomness) ∧
    (2 ≤ randoms.length →
      ∃ priKey pubKey,
        NewKeyPair p randoms = .ok (priKey, pubKey) ∧
        priKey.length = randoms.length ∧
        pubKey.length = randoms.length ∧
        ∀ i, i < randoms.length →
          ∃ sk, priKey[i]? = some sk ∧
            pubKey[i]? = some (pointMul p sk (g2Base p))) := by
  constructor
  · intro hlt
    rw [NewKeyPair, if_pos hlt]
  · intro hge
    refine ⟨randoms, randoms.map (fun s => pointMul p s (g2Base p)), ?_, rfl, ?_, ?_⟩
    · rw [NewKeyPair, if_neg (by omega)]
    · simp
    · intro i hi
      refine ⟨randoms.get ⟨i, hi⟩, ?_, ?_⟩
      · rw [List.getElem?_eq_getElem hi]
        rfl
      · rw [List.getElem?_map, List.getElem?_eq_getElem hi, Option.map_some']
        rfl

/-- C6 witness: one source fails; two sources give keys of length two with
matching slots. -/
theorem ps_newKeyPair_contract_witness :
    NewKeyPair 5 [(2 : ZMod 5)] = .error .insufficientRandomness ∧
    (∃ priKey pubKey,
      NewKeyPair 5 [(2 : ZMod 5), 3] = .ok (priKey, pubKey) ∧
      priKey.length = 2 ∧
      pubKey.length = 2 ∧
      ∀ i, i < 2 →
        ∃ sk, priKey[i]? = some sk ∧
          pubKey[i]? = some (pointMul 5 sk (g2Base 5))) :=
  ⟨(ps_newKeyPair_contract 5 [2]).1 (by decide),
    (ps_newKeyPair_contract 5 [2, 3]).2 (by decide)⟩

/-- C8: on a single message, `Verify` and `PSBatchVerify` with the
singleton message vector agree exactly, for every public key, message and
signature (including panics and decode errors). -/
theorem ps_single_batch_agree (p : ℕ) (pubKey : List (ZMod p)) (msg : List ℕ)
    (S : List (G1Bytes p)) :
    Verify p pubKey msg S = PSBatchVerify p pubKey [msg] S := by
  cases h1 : pubKey[1]? with
  | none => simp [Verify, PSBatchVerify, batchY, batchYAux, h1]
  | some pk1 =>
    cases h0 : pubKey[0]? with
    | none => simp [Verify, PSBatchVerify, batchY, batchYAux, h1, h0]
    | some pk0 =>
      simp [Verify, PSBatchVerify, batchY, batchYAux, h1, h0, pointAdd,
        pointMul, zero_add]

/-- C9: when the message vector has length at most `|PrivateKey| − 1`
(resp. `|PublicKey| − 1`), every key access `priKey[i+1]` in `BatchSign`'s
loop (`batchSum`) and every `pubKey[i+1]` in `PSBatchVerify`'s loop
(`batchY`) is in range, so the loops complete; there is no internal length
check — with too many messages the loop hits the panic (`none`), not an
error value. -/
theorem ps_batch_index_safety (p : ℕ) (priKey pubKey : List (ZMod p))
    (msgs : List (List ℕ)) :
    ((msgs.length : ℤ) ≤ (priKey.length : ℤ) - 1 →
      ∃ y, batchSum p priKey msgs = some y) ∧
    ((msgs.length : ℤ) ≤ (pubKey.length : ℤ) - 1 →
      ∃ Y, batchY p pubKey msgs = some Y) ∧
    (msgs ≠ [] → (priKey.length : ℤ) - 1 < (msgs.length : ℤ) →
      batchSum p priKey msgs = none) := by
  refine ⟨?_, ?_, ?_⟩
  · intro hlen
    exact batchSumAux_isSome p priKey msgs 0 0 (by omega)
  · intro hlen
    exact batchYAux_isSome p pubKey msgs 0 0 (by omega)
  · intro hne hlen
    exact batchSumAux_eq_none p priKey msgs 0 0 hne (by omega)

/-- C9 witness: key of length 3 with two messages succeeds on both loops;
key of length 2 with two messages hits the out-of-range access. -/
theorem ps_batch_index_safety_witness :
    (∃ y, batchSum 5 [(1 : ZMod 5), 2, 3] [[4], [6]] = some y) ∧
    (∃ Y, batchY 5 [(1 : ZMod 5), 2, 3] [[4], [6]] = some Y) ∧
    batchSum 5 [(1 : ZMod 5), 2] [[4], [6]] = none :=
  ⟨(ps_batch_index_safety 5 [1, 2, 3] [] [[4], [6]]).1 (by decide),
    (ps_batch_index_safety 5 [] [1, 2, 3] [[4], [6]]).2.1 (by decide),
    (ps_batch_index_safety 5 [1, 2] [] [[4], [6]]).2.2 (by decide) (by decide)⟩

/-- C10: `Sign` reads only key slots 0 and 1 — two private keys of length at
least 2 agreeing on those slots produce identical signatures for the same
sampled random point `h`. -/
theorem ps_sign_ignores_extra_slots (p : ℕ) (k k' : List (ZMod p))
    (msg : List ℕ) (h : ZMod p) (_hk : 2 ≤ k.length) (_hk' : 2 ≤ k'.length)
    (h0 : k[0]? = k'[0]?) (h1 : k[1]? = k'[1]?) :
    Sign p k msg h = Sign p k' msg h := by
  rw [Sign, Sign, h0, h1]

/-- C10 witness: keys `[1, 2, 3]` and `[1, 2, 4, 0]` sign `[7]` with `h = 4`
identically. -/
theorem ps_sign_ignores_extra_slots_witness :
    Sign 5 [(1 : ZMod 5), 2, 3] [7] 4 = Sign 5 [(1 : ZMod 5), 2, 4, 0] [7] 4 :=
  ps_sign_ignores_extra_slots 5 [1, 2, 3] [1, 2, 4, 0] [7] 4
    (by decide) (by decide) (by decide) (by decide)

end PS
